import Mathlib

/-!
Verification of the minima-search core of `scqubits/core/flux_qubit_vchos.py`
(class `FluxQubitVCHOSFunctions`, methods `_ramp` and `find_minima`).

The two methods are shallowly embedded below.  Scalars are modelled as `ℚ`
(the source computes with IEEE-754 doubles; none of the verified properties
depend on rounding, only on the data flow and control flow of the search).
The collaborators that live outside this file's source — `scipy.optimize.minimize`,
`self.potential` (from `FluxQubitFunctions`), `self._check_if_new_minima` and
`self.normalize_minimum_inside_pi_range` (from the `VCHOS` base) — are
uninterpreted function-valued fields of the `Qubit` structure, so every theorem
below is quantified over their behavior.
-/

/-- Phase-space point: a 2-vector of phase coordinates `(phi1, phi2)`,
modelling the `np.array` 2-vectors of the source. -/
abbrev Point : Type := ℚ × ℚ

/-- Exact rational value of the IEEE-754 double `np.pi`
(`884279719003555 / 2^48`). -/
def np_pi : ℚ := 884279719003555 / 281474976710656

/-- Result object returned by `scipy.optimize.minimize`: the solution
vector `x` together with the reported convergence status `success`. -/
structure OptimizeResult where
  x : Point
  success : Bool

/-- The state of a `FluxQubitVCHOSFunctions` object as seen by `find_minima`:
the device parameters stored by `__init__`, the structural constant
`boundary_coefficients = [+1, -1]`, and the collaborator functions
(`potential`, the optimizer, the deduplicator and the normalizer) that are
defined outside `flux_qubit_vchos.py` and are therefore uninterpreted here. -/
structure Qubit where
  EJ1 : ℚ
  EJ2 : ℚ
  EJ3 : ℚ
  ng1 : ℚ
  ng2 : ℚ
  ECJ1 : ℚ
  ECJ2 : ℚ
  ECJ3 : ℚ
  ECg1 : ℚ
  ECg2 : ℚ
  flux : ℚ
  boundary_coefficients : ℤ × ℤ
  potential : Point → ℚ
  minimize : (Point → ℚ) → Point → OptimizeResult
  _check_if_new_minima : Point → List Point → Bool
  normalize_minimum_inside_pi_range : Point → Point

/-- The ramp seed of `_ramp`:
`guess = np.array([1.15 * 2.0 * np.pi * k / 3.0, 2.0 * np.pi * k / 3.0])`. -/
def ramp_guess (k : ℤ) : Point :=
  (1.15 * 2.0 * np_pi * (k : ℚ) / 3.0, 2.0 * np_pi * (k : ℚ) / 3.0)

/-- The raw optimizer output `result.x` produced inside `_ramp` for seed
index `k` (before any normalization). -/
def ramp_raw (q : Qubit) (k : ℤ) : Point :=
  (q.minimize q.potential (ramp_guess k)).x

/-- Shallow embedding of `FluxQubitVCHOSFunctions._ramp`:

```
guess = np.array([1.15 * 2.0 * np.pi * k / 3.0, 2.0 * np.pi * k / 3.0])
result = minimize(self.potential, guess)
new_minima = self._check_if_new_minima(result.x, minima_holder)
if new_minima:
    minima_holder.append(self.normalize_minimum_inside_pi_range(result.x))
return minima_holder, new_minima
```
-/
def _ramp (q : Qubit) (k : ℤ) (minima_holder : List Point) : List Point × Bool :=
  let guess := ramp_guess k
  let result := q.minimize q.potential guess
  let new_minima := q._check_if_new_minima result.x minima_holder
  let minima_holder :=
    if new_minima then
      minima_holder ++ [q.normalize_minimum_inside_pi_range result.x]
    else minima_holder
  (minima_holder, new_minima)

/-- The anchor seed of `find_minima`:
`np.array([0.15, 0.1])` when `self.flux == 0.5`, else `np.array([0.0, 0.0])`. -/
def anchor_guess (q : Qubit) : Point :=
  if q.flux = 0.5 then (0.15, 0.1) else (0.0, 0.0)

/-- The normalized anchor-seed optimizer result, the first element appended
to `minima_holder` by `find_minima`. -/
def anchor_result (q : Qubit) : Point :=
  q.normalize_minimum_inside_pi_range (q.minimize q.potential (anchor_guess q)).x

/-- The `for k in range(1, 4)` loop of `find_minima`, taking the list of
remaining seed indices:

```
for k in range(1, 4):
    (minima_holder, new_minima_positive) = self._ramp(k, minima_holder)
    (minima_holder, new_minima_negative) = self._ramp(-k, minima_holder)
    if not (new_minima_positive and new_minima_negative):
        break
```
-/
def find_minima_loop (q : Qubit) : List ℤ → List Point → List Point
  | [], minima_holder => minima_holder
  | k :: ks, minima_holder =>
    let r1 := _ramp q k minima_holder
    let r2 := _ramp q (-k) r1.1
    if r1.2 && r2.2 then find_minima_loop q ks r2.1 else r2.1

/-- Shallow embedding of `FluxQubitVCHOSFunctions.find_minima`:

```
minima_holder = []
if self.flux == 0.5:
    guess = np.array([0.15, 0.1])
else:
    guess = np.array([0.0, 0.0])
result = minimize(self.potential, guess)
minima_holder.append(self.normalize_minimum_inside_pi_range(result.x))
for k in range(1, 4):
    ...
return minima_holder
```
-/
def find_minima (q : Qubit) : List Point :=
  let minima_holder : List Point := []
  let guess := anchor_guess q
  let result := q.minimize q.potential guess
  let minima_holder := minima_holder ++ [q.normalize_minimum_inside_pi_range result.x]
  find_minima_loop q [1, 2, 3] minima_holder

/-- One executed iteration of the ramp loop: the seed index `k` of the
iteration and the two novelty verdicts returned by `_ramp(k, ...)` and
`_ramp(-k, ...)`. -/
structure StepRecord where
  k : ℤ
  new_minima_positive : Bool
  new_minima_negative : Bool

/-- One call to `self._check_if_new_minima`: the candidate passed to it, the
`minima_holder` it was tested against, and the verdict. -/
structure DedupCall where
  candidate : Point
  holder : List Point
  verdict : Bool

/-- Execution trace of `find_minima`: every seed passed to
`scipy.optimize.minimize` (in call order), every call to the deduplicator,
and one `StepRecord` per executed ramp-loop iteration. -/
structure Trace where
  optCalls : List Point
  dedupCalls : List DedupCall
  steps : List StepRecord

/-- Instrumented version of `find_minima_loop` that also records the
execution trace.  Its first component coincides with `find_minima_loop`
(theorem `find_minima_loopT_fst`). -/
def find_minima_loopT (q : Qubit) : List ℤ → List Point → List Point × Trace
  | [], minima_holder => (minima_holder, ⟨[], [], []⟩)
  | k :: ks, minima_holder =>
    let r1 := _ramp q k minima_holder
    let r2 := _ramp q (-k) r1.1
    let d1 : DedupCall := ⟨ramp_raw q k, minima_holder, r1.2⟩
    let d2 : DedupCall := ⟨ramp_raw q (-k), r1.1, r2.2⟩
    if r1.2 && r2.2 then
      let rest := find_minima_loopT q ks r2.1
      (rest.1,
       ⟨ramp_guess k :: ramp_guess (-k) :: rest.2.optCalls,
        d1 :: d2 :: rest.2.dedupCalls,
        ⟨k, r1.2, r2.2⟩ :: rest.2.steps⟩)
    else
      (r2.1, ⟨[ramp_guess k, ramp_guess (-k)], [d1, d2], [⟨k, r1.2, r2.2⟩]⟩)

/-- Instrumented version of `find_minima` recording the execution trace.
Its first component coincides with `find_minima` (theorem
`find_minima_tr_fst`). -/
def find_minima_tr (q : Qubit) : List Point × Trace :=
  let minima_holder : List Point := [anchor_result q]
  let r := find_minima_loopT q [1, 2, 3] minima_holder
  (r.1, ⟨anchor_guess q :: r.2.optCalls, r.2.dedupCalls, r.2.steps⟩)

/-- State-passing embedding of `_ramp`: the object `self` is threaded
explicitly so that (absence of) mutation of the qubit object is expressible.
No statement of the source method assigns to an attribute of `self`, so the
final state returned is the input state. -/
def _ramp_st (q : Qubit) (k : ℤ) (minima_holder : List Point) :
    (List Point × Bool) × Qubit :=
  let guess := ramp_guess k
  let result := q.minimize q.potential guess
  let new_minima := q._check_if_new_minima result.x minima_holder
  let minima_holder :=
    if new_minima then
      minima_holder ++ [q.normalize_minimum_inside_pi_range result.x]
    else minima_holder
  ((minima_holder, new_minima), q)

/-- State-passing embedding of the ramp loop of `find_minima`. -/
def find_minima_loop_st : Qubit → List ℤ → List Point → List Point × Qubit
  | q, [], minima_holder => (minima_holder, q)
  | q, k :: ks, minima_holder =>
    let r1 := _ramp_st q k minima_holder
    let r2 := _ramp_st r1.2 (-k) r1.1.1
    if r1.1.2 && r2.1.2 then find_minima_loop_st r2.2 ks r2.1.1
    else (r2.1.1, r2.2)

/-- State-passing embedding of `find_minima`: returns the minima list
together with the final state of the qubit object. -/
def find_minima_st (q : Qubit) : List Point × Qubit :=
  let minima_holder : List Point := []
  let result := q.minimize q.potential (anchor_guess q)
  let minima_holder := minima_holder ++ [q.normalize_minimum_inside_pi_range result.x]
  find_minima_loop_st q [1, 2, 3] minima_holder

theorem _ramp_snd (q : Qubit) (k : ℤ) (h : List Point) :
    (_ramp q k h).2 = q._check_if_new_minima (ramp_raw q k) h := rfl

theorem _ramp_fst (q : Qubit) (k : ℤ) (h : List Point) :
    (_ramp q k h).1 =
      if (_ramp q k h).2 then
        h ++ [q.normalize_minimum_inside_pi_range (ramp_raw q k)]
      else h := rfl

theorem find_minima_loopT_fst (q : Qubit) (ks : List ℤ) :
    ∀ h : List Point, (find_minima_loopT q ks h).1 = find_minima_loop q ks h := by
  induction ks with
  | nil => intro h; rfl
  | cons k ks ih =>
    intro h
    simp only [find_minima_loopT, find_minima_loop]
    split
    · exact ih _
    · rfl

theorem find_minima_tr_fst (q : Qubit) : (find_minima_tr q).1 = find_minima q := by
  simp only [find_minima_tr, find_minima, List.nil_append]
  exact find_minima_loopT_fst q [1, 2, 3] _

theorem _ramp_append (q : Qubit) (k : ℤ) (h : List Point) :
    ∃ t, (_ramp q k h).1 = h ++ t := by
  rw [_ramp_fst]
  split
  · exact ⟨_, rfl⟩
  · exact ⟨[], (List.append_nil h).symm⟩

theorem _ramp_length (q : Qubit) (k : ℤ) (h : List Point) :
    (_ramp q k h).1.length ≤ h.length + 1 := by
  rw [_ramp_fst]
  split
  · simp
  · simp

theorem find_minima_loop_append (q : Qubit) (ks : List ℤ) :
    ∀ h : List Point, ∃ t, find_minima_loop q ks h = h ++ t := by
  induction ks with
  | nil => intro h; exact ⟨[], (List.append_nil h).symm⟩
  | cons k ks ih =>
    intro h
    simp only [find_minima_loop]
    obtain ⟨t1, ht1⟩ := _ramp_append q k h
    obtain ⟨t2, ht2⟩ := _ramp_append q (-k) (_ramp q k h).1
    split
    · obtain ⟨t3, ht3⟩ := ih (_ramp q (-k) (_ramp q k h).1).1
      exact ⟨t1 ++ t2 ++ t3, by rw [ht3, ht2, ht1]; simp⟩
    · exact ⟨t1 ++ t2, by rw [ht2, ht1]; simp⟩

theorem find_minima_loop_length (q : Qubit) (ks : List ℤ) :
    ∀ h : List Point,
      (find_minima_loop q ks h).length ≤ h.length + 2 * ks.length := by
  induction ks with
  | nil => intro h; simp [find_minima_loop]
  | cons k ks ih =>
    intro h
    simp only [find_minima_loop]
    have h1 := _ramp_length q k h
    have h2 := _ramp_length q (-k) (_ramp q k h).1
    split
    · have h3 := ih (_ramp q (-k) (_ramp q k h).1).1
      simp only [List.length_cons]
      omega
    · simp only [List.length_cons]
      omega

theorem find_minima_loopT_steps_le (q : Qubit) (ks : List ℤ) :
    ∀ h : List Point,
      (find_minima_loopT q ks h).2.steps.length ≤ ks.length := by
  induction ks with
  | nil => intro h; simp [find_minima_loopT]
  | cons k ks ih =>
    intro h
    simp only [find_minima_loopT]
    split
    · simpa using Nat.add_le_add_right (ih _) 1
    · simp

theorem find_minima_loopT_steps_pos (q : Qubit) (k : ℤ) (ks : List ℤ)
    (h : List Point) :
    0 < (find_minima_loopT q (k :: ks) h).2.steps.length := by
  simp only [find_minima_loopT]
  split <;> simp

theorem find_minima_loopT_steps_map (q : Qubit) (ks : List ℤ) :
    ∀ h : List Point,
      (find_minima_loopT q ks h).2.steps.map StepRecord.k =
        ks.take (find_minima_loopT q ks h).2.steps.length := by
  induction ks with
  | nil => intro h; simp [find_minima_loopT]
  | cons k ks ih =>
    intro h
    simp only [find_minima_loopT]
    split
    · simp only [List.map_cons, List.length_cons, List.take_succ_cons]
      rw [ih]
    · simp

theorem find_minima_loopT_optCalls (q : Qubit) (ks : List ℤ) :
    ∀ h : List Point,
      (find_minima_loopT q ks h).2.optCalls =
        (ks.take (find_minima_loopT q ks h).2.steps.length).flatMap
          (fun j => [ramp_guess j, ramp_guess (-j)]) := by
  induction ks with
  | nil => intro h; simp [find_minima_loopT]
  | cons k ks ih =>
    intro h
    simp only [find_minima_loopT]
    split
    · simp only [List.length_cons, List.take_succ_cons, List.flatMap_cons]
      rw [ih]
      rfl
    · simp

theorem find_minima_loopT_optCalls_len (q : Qubit) (ks : List ℤ) :
    ∀ h : List Point,
      (find_minima_loopT q ks h).2.optCalls.length =
        2 * (find_minima_loopT q ks h).2.steps.length := by
  induction ks with
  | nil => intro h; simp [find_minima_loopT]
  | cons k ks ih =>
    intro h
    simp only [find_minima_loopT]
    split
    · simp only [List.length_cons]
      rw [ih]
      ring
    · simp

theorem find_minima_loopT_flags_cont (q : Qubit) (ks : List ℤ) :
    ∀ (h : List Point) (s : StepRecord),
      s ∈ (find_minima_loopT q ks h).2.steps.dropLast →
      s.new_minima_positive = true ∧ s.new_minima_negative = true := by
  induction ks with
  | nil => intro h s hs; simp [find_minima_loopT] at hs
  | cons k ks ih =>
    intro h
    simp only [find_minima_loopT]
    by_cases hc : ((_ramp q k h).2 && (_ramp q (-k) (_ramp q k h).1).2) = true
    · rw [if_pos hc]
      intro s hs
      dsimp only at hs
      rcases hrest : (find_minima_loopT q ks (_ramp q (-k) (_ramp q k h).1).1).2.steps
        with _ | ⟨s2, rest2⟩
      · rw [hrest] at hs
        simp at hs
      · rw [hrest, List.dropLast_cons₂] at hs
        rcases List.mem_cons.mp hs with hEq | hMem
        · subst hEq
          exact Bool.and_eq_true _ _ ▸ hc
        · exact ih _ s (by rw [hrest]; exact hMem)
    · rw [if_neg hc]
      intro s hs
      simp at hs

theorem find_minima_loopT_flags_break (q : Qubit) (ks : List ℤ) :
    ∀ (h : List Point) (s : StepRecord),
      (find_minima_loopT q ks h).2.steps.getLast? = some s →
      s.new_minima_positive = true → s.new_minima_negative = true →
      (find_minima_loopT q ks h).2.steps.length = ks.length := by
  induction ks with
  | nil => intro h s hs; simp [find_minima_loopT] at hs
  | cons k ks ih =>
    intro h
    simp only [find_minima_loopT]
    by_cases hc : ((_ramp q k h).2 && (_ramp q (-k) (_ramp q k h).1).2) = true
    · rw [if_pos hc]
      intro s hlast hp hn
      dsimp only at hlast ⊢
      rcases ks with _ | ⟨k2, ks2⟩
      · simp [find_minima_loopT] at hlast ⊢
      · have hpos := find_minima_loopT_steps_pos q k2 ks2
          (_ramp q (-k) (_ramp q k h).1).1
        rcases hrest : (find_minima_loopT q (k2 :: ks2) (_ramp q (-k) (_ramp q k h).1).1).2.steps
          with _ | ⟨s2, rest2⟩
        · rw [hrest] at hpos; simp at hpos
        · rw [hrest] at hlast
          rw [List.getLast?_cons_cons] at hlast
          have := ih (_ramp q (-k) (_ramp q k h).1).1 s (by rw [hrest]; exact hlast) hp hn
          rw [hrest] at this
          simp only [List.length_cons] at this ⊢
          omega
    · rw [if_neg hc]
      intro s hlast hp hn
      dsimp only at hlast
      simp only [List.getLast?_singleton, Option.some.injEq] at hlast
      subst hlast
      simp at hp hn
      rw [hp, hn] at hc
      simp at hc

theorem find_minima_loopT_dedup_holder (q : Qubit) (ks : List ℤ) :
    ∀ (h : List Point) (d : DedupCall),
      d ∈ (find_minima_loopT q ks h).2.dedupCalls → ∃ t, d.holder = h ++ t := by
  induction ks with
  | nil => intro h d hd; simp [find_minima_loopT] at hd
  | cons k ks ih =>
    intro h
    simp only [find_minima_loopT]
    by_cases hc : ((_ramp q k h).2 && (_ramp q (-k) (_ramp q k h).1).2) = true
    · rw [if_pos hc]
      intro d hd
      dsimp only at hd
      rcases List.mem_cons.mp hd with hEq | hd2
      · subst hEq
        exact ⟨[], (List.append_nil h).symm⟩
      · rcases List.mem_cons.mp hd2 with hEq | hd3
        · subst hEq
          exact _ramp_append q k h
        · obtain ⟨t1, ht1⟩ := _ramp_append q k h
          obtain ⟨t2, ht2⟩ := _ramp_append q (-k) (_ramp q k h).1
          obtain ⟨t3, ht3⟩ := ih (_ramp q (-k) (_ramp q k h).1).1 d hd3
          exact ⟨t1 ++ t2 ++ t3, by rw [ht3, ht2, ht1]; simp⟩
    · rw [if_neg hc]
      intro d hd
      dsimp only at hd
      rcases List.mem_cons.mp hd with hEq | hd2
      · subst hEq
        exact ⟨[], (List.append_nil h).symm⟩
      · rcases List.mem_cons.mp hd2 with hEq | hd3
        · subst hEq
          exact _ramp_append q k h
        · simp at hd3

theorem find_minima_eq_loop (q : Qubit) :
    find_minima q = find_minima_loop q [1, 2, 3] [anchor_result q] := rfl

theorem _ramp_congr (q1 q2 : Qubit)
    (hpot : q1.potential = q2.potential)
    (hcheck : q1._check_if_new_minima = q2._check_if_new_minima)
    (hnorm : q1.normalize_minimum_inside_pi_range =
      q2.normalize_minimum_inside_pi_range)
    (hminx : ∀ f g, (q1.minimize f g).x = (q2.minimize f g).x)
    (k : ℤ) (h : List Point) :
    _ramp q1 k h = _ramp q2 k h := by
  simp only [_ramp]
  rw [hpot, hcheck, hnorm, hminx q2.potential (ramp_guess k)]

theorem find_minima_loop_congr (q1 q2 : Qubit)
    (hpot : q1.potential = q2.potential)
    (hcheck : q1._check_if_new_minima = q2._check_if_new_minima)
    (hnorm : q1.normalize_minimum_inside_pi_range =
      q2.normalize_minimum_inside_pi_range)
    (hminx : ∀ f g, (q1.minimize f g).x = (q2.minimize f g).x) :
    ∀ (ks : List ℤ) (h : List Point),
      find_minima_loop q1 ks h = find_minima_loop q2 ks h := by
  intro ks
  induction ks with
  | nil => intro h; rfl
  | cons k ks ih =>
    intro h
    simp only [find_minima_loop]
    rw [_ramp_congr q1 q2 hpot hcheck hnorm hminx k h,
        _ramp_congr q1 q2 hpot hcheck hnorm hminx (-k) (_ramp q2 k h).1]
    split
    · exact ih _
    · rfl

theorem find_minima_congr (q1 q2 : Qubit)
    (hflux : q1.flux = q2.flux)
    (hpot : q1.potential = q2.potential)
    (hcheck : q1._check_if_new_minima = q2._check_if_new_minima)
    (hnorm : q1.normalize_minimum_inside_pi_range =
      q2.normalize_minimum_inside_pi_range)
    (hminx : ∀ f g, (q1.minimize f g).x = (q2.minimize f g).x) :
    find_minima q1 = find_minima q2 := by
  rw [find_minima_eq_loop, find_minima_eq_loop,
      find_minima_loop_congr q1 q2 hpot hcheck hnorm hminx]
  have : anchor_result q1 = anchor_result q2 := by
    simp only [anchor_result, anchor_guess, hflux, hpot, hnorm,
      hminx q2.potential]
  rw [this]

theorem _ramp_pairwise (q : Qubit) (e : Point → Point → Prop)
    (hsym : ∀ a b, e a b → e b a)
    (htrans : ∀ a b c, e a b → e b c → e a c)
    (hcheck : ∀ x l, q._check_if_new_minima x l = true ↔ ∀ y ∈ l, ¬ e x y)
    (hnorm : ∀ x, e (q.normalize_minimum_inside_pi_range x) x)
    (k : ℤ) (h : List Point)
    (hp : h.Pairwise fun a b => ¬ e a b) :
    (_ramp q k h).1.Pairwise fun a b => ¬ e a b := by
  rw [_ramp_fst]
  by_cases hflag : (_ramp q k h).2 = true
  · rw [if_pos hflag]
    rw [List.pairwise_append]
    refine ⟨hp, List.pairwise_singleton _ _, ?_⟩
    intro a ha b hb
    simp only [List.mem_singleton] at hb
    subst hb
    rw [_ramp_snd] at hflag
    have hraw := (hcheck (ramp_raw q k) h).mp hflag a ha
    intro hcon
    exact hraw (hsym _ _ (htrans _ _ _ hcon (hnorm _)))
  · rw [if_neg hflag]
    exact hp

theorem find_minima_loop_pairwise (q : Qubit) (e : Point → Point → Prop)
    (hsym : ∀ a b, e a b → e b a)
    (htrans : ∀ a b c, e a b → e b c → e a c)
    (hcheck : ∀ x l, q._check_if_new_minima x l = true ↔ ∀ y ∈ l, ¬ e x y)
    (hnorm : ∀ x, e (q.normalize_minimum_inside_pi_range x) x) :
    ∀ (ks : List ℤ) (h : List Point),
      h.Pairwise (fun a b => ¬ e a b) →
      (find_minima_loop q ks h).Pairwise fun a b => ¬ e a b := by
  intro ks
  induction ks with
  | nil => intro h hp; exact hp
  | cons k ks ih =>
    intro h hp
    simp only [find_minima_loop]
    split
    · exact ih _ (_ramp_pairwise q e hsym htrans hcheck hnorm (-k) _
        (_ramp_pairwise q e hsym htrans hcheck hnorm k h hp))
    · exact _ramp_pairwise q e hsym htrans hcheck hnorm (-k) _
        (_ramp_pairwise q e hsym htrans hcheck hnorm k h hp)

theorem _ramp_st_eq (q : Qubit) (k : ℤ) (h : List Point) :
    _ramp_st q k h = (_ramp q k h, q) := rfl

theorem find_minima_loop_st_eq (q : Qubit) (ks : List ℤ) :
    ∀ h : List Point,
      find_minima_loop_st q ks h = (find_minima_loop q ks h, q) := by
  induction ks with
  | nil => intro h; rfl
  | cons k ks ih =>
    intro h
    simp only [find_minima_loop_st, find_minima_loop, _ramp_st_eq]
    split
    · exact ih _
    · rfl

theorem find_minima_st_eq (q : Qubit) :
    find_minima_st q = (find_minima q, q) := by
  simp only [find_minima_st, find_minima]
  exact find_minima_loop_st_eq q [1, 2, 3] _

theorem find_minima_tr_optCalls (q : Qubit) :
    (find_minima_tr q).2.optCalls =
      anchor_guess q ::
        (find_minima_loopT q [1, 2, 3] [anchor_result q]).2.optCalls := rfl

theorem find_minima_tr_steps (q : Qubit) :
    (find_minima_tr q).2.steps =
      (find_minima_loopT q [1, 2, 3] [anchor_result q]).2.steps := rfl

theorem find_minima_tr_dedupCalls (q : Qubit) :
    (find_minima_tr q).2.dedupCalls =
      (find_minima_loopT q [1, 2, 3] [anchor_result q]).2.dedupCalls := rfl

/-- Optimizer model that returns its seed unchanged and reports convergence.
Used to exercise the search on runs where every seed is "found" as a distinct
minimum. -/
def seedOpt : (Point → ℚ) → Point → OptimizeResult := fun _ guess => ⟨guess, true⟩

/-- Optimizer model identical to `seedOpt` except that it reports
non-convergence. -/
def seedOptNC : (Point → ℚ) → Point → OptimizeResult := fun _ guess => ⟨guess, false⟩

/-- Optimizer model that always converges to the origin (the behavior of a
single-well potential landscape). -/
def originOpt : (Point → ℚ) → Point → OptimizeResult := fun _ _ => ⟨(0, 0), true⟩

/-- Deduplicator model: a candidate is new iff it is not already an element of
the holder list. -/
def memCheck : Point → List Point → Bool := fun x l => decide (x ∉ l)

/-- Potential model used by the concrete test qubits (its values are never
inspected by the search logic itself). -/
def zeroPot : Point → ℚ := fun _ => 0

/-- Concrete qubit (default device parameters of `FluxQubitVCHOS`) whose
optimizer returns each seed unchanged: all seven optimizer calls yield
pairwise-distinct results, so the ramp loop runs to its full depth. -/
def qSeed : Qubit :=
  { EJ1 := 1, EJ2 := 1, EJ3 := 0.8, ng1 := 0, ng2 := 0,
    ECJ1 := 0.1, ECJ2 := 0.1, ECJ3 := 0.1, ECg1 := 5, ECg2 := 5,
    flux := 0.46, boundary_coefficients := (1, -1),
    potential := zeroPot, minimize := seedOpt,
    _check_if_new_minima := memCheck,
    normalize_minimum_inside_pi_range := id }

/-- `qSeed` with a non-converged optimizer status (same solution vectors). -/
def qSeedNC : Qubit := { qSeed with minimize := seedOptNC }

/-- `qSeed` with different (physically meaningless) boundary coefficients. -/
def qSeedB : Qubit := { qSeed with boundary_coefficients := (2, -2) }

/-- `qSeed` at the frustration point `flux = 0.5`. -/
def qFlux05 : Qubit := { qSeed with flux := 0.5 }

/-- Concrete qubit whose optimizer always lands on the origin: the first ramp
step finds no new minimum in either direction and the loop stops at `k = 1`. -/
def qOrigin : Qubit := { qSeed with flux := 0, minimize := originOpt }

/-- Optimizer model converging to the fixed point `(1, 1)`. -/
def constOpt11 : (Point → ℚ) → Point → OptimizeResult := fun _ _ => ⟨(1, 1), true⟩

/-- Concrete qubit separating the raw and the normalized optimizer result:
the optimizer returns `(1, 1)`, the normalizer maps everything to `(0, 0)`,
and the deduplicator accepts exactly the candidate `(0, 0)`. -/
def qRawVsNorm : Qubit :=
  { qSeed with
    _check_if_new_minima := fun x _ => decide (x = ((0 : ℚ), (0 : ℚ))),
    minimize := constOpt11,
    normalize_minimum_inside_pi_range := fun _ => (0, 0) }

/-- C1: for every device-parameter set (and any collaborator behavior), the
ramp loop of `find_minima` processes seed indices 1, 2, ... in increasing
order and advances from index k to k + 1 exactly when both the positive and
the negative ramp of step k produced a novel minimum: every executed step
other than the last has both novelty flags true, and the last executed step
has both flags true only when the loop bound (index 3) was reached. -/
theorem C1_ramp_loop_stop_rule (q : Qubit) :
    ((find_minima_tr q).2.steps.map StepRecord.k =
      ([1, 2, 3] : List ℤ).take (find_minima_tr q).2.steps.length) ∧
    (∀ s ∈ (find_minima_tr q).2.steps.dropLast,
      s.new_minima_positive = true ∧ s.new_minima_negative = true) ∧
    (∀ s, (find_minima_tr q).2.steps.getLast? = some s →
      s.new_minima_positive = true → s.new_minima_negative = true →
      (find_minima_tr q).2.steps.length = 3) := by
  rw [find_minima_tr_steps]
  exact ⟨find_minima_loopT_steps_map q [1, 2, 3] _,
    fun s hs => find_minima_loopT_flags_cont q [1, 2, 3] _ s hs,
    fun s hl hp hn => find_minima_loopT_flags_break q [1, 2, 3] _ s hl hp hn⟩

/-- Witness for C1: its statement instantiated at the concrete qubit
`qSeed`. -/
theorem C1_ramp_loop_stop_rule_witness :
    (find_minima_tr qSeed).2.steps.map StepRecord.k =
      ([1, 2, 3] : List ℤ).take (find_minima_tr qSeed).2.steps.length :=
  (C1_ramp_loop_stop_rule qSeed).1

/-- C2: for every device-parameter set, the local optimizer's anchor seed is
`(0.15, 0.1)` when `flux = 0.5` exactly and `(0, 0)` otherwise, the returned
minima list is non-empty, its first element is the normalized anchor-seed
optimizer result, and the anchor is never submitted to the deduplicator
(every deduplicator call already sees a non-empty holder containing the
anchor). -/
theorem C2_anchor_always_present (q : Qubit) :
    find_minima q ≠ [] ∧
    (find_minima q).head? = some (anchor_result q) ∧
    (q.flux = 0.5 → anchor_guess q = (0.15, 0.1)) ∧
    (q.flux ≠ 0.5 → anchor_guess q = (0.0, 0.0)) ∧
    (∀ d ∈ (find_minima_tr q).2.dedupCalls, d.holder ≠ []) := by
  obtain ⟨t, ht⟩ := find_minima_loop_append q [1, 2, 3] [anchor_result q]
  refine ⟨?_, ?_, ?_, ?_, ?_⟩
  · rw [find_minima_eq_loop, ht]
    exact List.cons_ne_nil _ _
  · rw [find_minima_eq_loop, ht]
    rfl
  · intro hf
    simp [anchor_guess, hf]
  · intro hf
    simp [anchor_guess, hf]
  · intro d hd
    rw [find_minima_tr_dedupCalls] at hd
    obtain ⟨t2, ht2⟩ := find_minima_loopT_dedup_holder q [1, 2, 3] _ d hd
    rw [ht2]
    exact List.cons_ne_nil _ _

/-- Witness for C2: at the concrete qubit `qFlux05` (which sits exactly at
the frustration point) the returned list is non-empty and the anchor seed is
the off-origin point `(0.15, 0.1)`. -/
theorem C2_anchor_always_present_witness :
    find_minima qFlux05 ≠ [] ∧ anchor_guess qFlux05 = (0.15, 0.1) :=
  ⟨(C2_anchor_always_present qFlux05).1,
   (C2_anchor_always_present qFlux05).2.2.1 rfl⟩

/-- C3 counterexample: the claim states that the candidate tested for novelty
by the deduplicator is the NORMALIZED optimizer result.  At the concrete
qubit `qRawVsNorm` the normalized optimizer result would be declared novel,
yet `_ramp` reports no new minimum and appends nothing, because the source
passes the raw `result.x` (not the normalized point) to
`self._check_if_new_minima`. -/
theorem C3_dedup_candidate_counterexample :
    qRawVsNorm._check_if_new_minima
        (qRawVsNorm.normalize_minimum_inside_pi_range
          (qRawVsNorm.minimize qRawVsNorm.potential (ramp_guess 1)).x) [] = true ∧
    (_ramp qRawVsNorm 1 []).2 = false ∧
    (_ramp qRawVsNorm 1 []).1 = [] := by
  with_unfolding_all decide

/-- C3 (amended): for every ramp step, the candidate tested for novelty by
the deduplicator is the RAW optimizer result `result.x`; when that raw
candidate is declared novel, the NORMALIZED optimizer result is appended to
the minima set, otherwise the set is unchanged. -/
theorem C3_dedup_candidate_amended (q : Qubit) (k : ℤ)
    (minima_holder : List Point) :
    (_ramp q k minima_holder).2 =
      q._check_if_new_minima (ramp_raw q k) minima_holder ∧
    (_ramp q k minima_holder).1 =
      (if q._check_if_new_minima (ramp_raw q k) minima_holder then
        minima_holder ++
          [q.normalize_minimum_inside_pi_range (ramp_raw q k)]
      else minima_holder) :=
  ⟨rfl, rfl⟩

/-- C4 counterexample: the claim states that the seed indices used are
exactly k = 1, 2, 3.  At the concrete qubit `qOrigin` (optimizer always
converging to the same point) the first ramp step finds nothing new, the
loop breaks, and only k = 1 is ever used. -/
theorem C4_seed_indices_counterexample :
    (find_minima_tr qOrigin).2.steps.map StepRecord.k = [1] ∧
    (find_minima_tr qOrigin).2.steps.map StepRecord.k ≠ [1, 2, 3] := by
  with_unfolding_all decide

/-- C4 (amended): for every seed index k generated by `find_minima`, the
positive ramp seed equals `(1.15 * 2π * k/3, 2π * k/3)` and the negative
ramp seed is the same formula at `-k`; the seed indices used form a
non-empty prefix of 1, 2, 3 (in increasing order, bounded at 3), each index
contributing its positive seed then its negative seed to the optimizer-call
sequence, after the anchor seed. -/
theorem C4_seed_schedule_amended (q : Qubit) :
    ∃ m : ℕ, 1 ≤ m ∧ m ≤ 3 ∧
      (find_minima_tr q).2.steps.map StepRecord.k =
        ([1, 2, 3] : List ℤ).take m ∧
      (find_minima_tr q).2.optCalls =
        anchor_guess q ::
          (([1, 2, 3] : List ℤ).take m).flatMap
            (fun k => [ramp_guess k, ramp_guess (-k)]) ∧
      ∀ k : ℤ, ramp_guess k =
        (1.15 * 2.0 * np_pi * (k : ℚ) / 3.0, 2.0 * np_pi * (k : ℚ) / 3.0) := by
  refine ⟨(find_minima_loopT q [1, 2, 3] [anchor_result q]).2.steps.length,
    find_minima_loopT_steps_pos q 1 [2, 3] _, ?_, ?_, ?_, fun k => rfl⟩
  · exact find_minima_loopT_steps_le q [1, 2, 3] _
  · rw [find_minima_tr_steps]
    exact find_minima_loopT_steps_map q [1, 2, 3] _
  · rw [find_minima_tr_optCalls]
    rw [find_minima_loopT_optCalls q [1, 2, 3] _]

/-- C5: assuming the deduplicator decides (non-)equivalence with respect to
a symmetric and transitive relation `e` (equivalence modulo the periodic
lattice) and the normalizer preserves the equivalence class of its argument,
the returned minima list is duplicate-free: for every pair of distinct
elements, the deduplicator reports each as new with respect to the other. -/
theorem C5_no_duplicate_minima (q : Qubit) (e : Point → Point → Prop)
    (hsym : ∀ a b, e a b → e b a)
    (htrans : ∀ a b c, e a b → e b c → e a c)
    (hcheck : ∀ x l, q._check_if_new_minima x l = true ↔ ∀ y ∈ l, ¬ e x y)
    (hnorm : ∀ x, e (q.normalize_minimum_inside_pi_range x) x) :
    (find_minima q).Pairwise fun a b =>
      q._check_if_new_minima a [b] = true ∧
      q._check_if_new_minima b [a] = true := by
  have hpw := find_minima_loop_pairwise q e hsym htrans hcheck hnorm [1, 2, 3]
    [anchor_result q] (List.pairwise_singleton _ _)
  rw [find_minima_eq_loop]
  refine hpw.imp ?_
  intro a b hne
  constructor
  · rw [hcheck]
    intro y hy
    simp only [List.mem_singleton] at hy
    subst hy
    intro hab
    exact hne (hsym _ _ (hsym _ _ hab))
  · rw [hcheck]
    intro y hy
    simp only [List.mem_singleton] at hy
    subst hy
    intro hba
    exact hne (hsym _ _ hba)

/-- Witness for C5: its statement instantiated at `qSeed`, whose deduplicator
decides novelty as non-membership (equivalence relation: equality). -/
theorem C5_no_duplicate_minima_witness :
    (find_minima qSeed).Pairwise fun a b =>
      qSeed._check_if_new_minima a [b] = true ∧
      qSeed._check_if_new_minima b [a] = true :=
  C5_no_duplicate_minima qSeed Eq (fun a b hab => hab.symm)
    (fun a b c hab hbc => hab.trans hbc)
    (by
      intro x l
      show decide (x ∉ l) = true ↔ ∀ y ∈ l, ¬ x = y
      rw [decide_eq_true_eq]
      constructor
      · intro hx y hy hxy
        exact hx (by rw [hxy]; exact hy)
      · intro hall hx
        exact hall x hx rfl)
    (fun x => rfl)

/-- C6: the optimizer's reported convergence status is never inspected: two
qubits whose collaborators agree except possibly on the `success` component
of the optimizer result (same solution vectors `x`, same flux, potential,
deduplicator and normalizer) produce identical minima lists, so a
non-converged result is processed identically to a converged one. -/
theorem C6_convergence_status_ignored (q1 q2 : Qubit)
    (hflux : q1.flux = q2.flux)
    (hpot : q1.potential = q2.potential)
    (hcheck : q1._check_if_new_minima = q2._check_if_new_minima)
    (hnorm : q1.normalize_minimum_inside_pi_range =
      q2.normalize_minimum_inside_pi_range)
    (hminx : ∀ f g, (q1.minimize f g).x = (q2.minimize f g).x) :
    find_minima q1 = find_minima q2 :=
  find_minima_congr q1 q2 hflux hpot hcheck hnorm hminx

/-- Witness for C6: `qSeed` (optimizer reports convergence) and `qSeedNC`
(same optimizer solutions, reported as NOT converged) yield the same minima
list. -/
theorem C6_convergence_status_ignored_witness :
    find_minima qSeed = find_minima qSeedNC :=
  C6_convergence_status_ignored qSeed qSeedNC rfl rfl rfl rfl
    (fun f g => rfl)

/-- C7: determinism: two qubit objects with identical device parameters and
the same (deterministic) collaborator functions produce identical minima
lists — same length, same order, same values.  The `boundary_coefficients`
field (untouched by the search) may even differ. -/
theorem C7_determinism (q1 q2 : Qubit)
    (hEJ1 : q1.EJ1 = q2.EJ1) (hEJ2 : q1.EJ2 = q2.EJ2) (hEJ3 : q1.EJ3 = q2.EJ3)
    (hng1 : q1.ng1 = q2.ng1) (hng2 : q1.ng2 = q2.ng2)
    (hECJ1 : q1.ECJ1 = q2.ECJ1) (hECJ2 : q1.ECJ2 = q2.ECJ2)
    (hECJ3 : q1.ECJ3 = q2.ECJ3)
    (hECg1 : q1.ECg1 = q2.ECg1) (hECg2 : q1.ECg2 = q2.ECg2)
    (hflux : q1.flux = q2.flux)
    (hpot : q1.potential = q2.potential)
    (hmin : q1.minimize = q2.minimize)
    (hcheck : q1._check_if_new_minima = q2._check_if_new_minima)
    (hnorm : q1.normalize_minimum_inside_pi_range =
      q2.normalize_minimum_inside_pi_range) :
    find_minima q1 = find_minima q2 :=
  find_minima_congr q1 q2 hflux hpot hcheck hnorm (fun f g => by rw [hmin])

/-- Witness for C7: `qSeed` and `qSeedB` agree on every device parameter and
collaborator and differ only in `boundary_coefficients`; their minima lists
coincide. -/
theorem C7_determinism_witness : find_minima qSeed = find_minima qSeedB :=
  C7_determinism qSeed qSeedB rfl rfl rfl rfl rfl rfl rfl rfl rfl rfl rfl
    rfl rfl rfl rfl

/-- C8: a call to `find_minima` mutates no field of the qubit object: in the
state-passing embedding the final state equals the initial state — in
particular every device parameter and `boundary_coefficients` are unchanged —
and the returned value is exactly the locally built minima list. -/
theorem C8_no_mutation (q : Qubit) :
    (find_minima_st q).2 = q ∧
    (find_minima_st q).2.EJ1 = q.EJ1 ∧
    (find_minima_st q).2.EJ2 = q.EJ2 ∧
    (find_minima_st q).2.EJ3 = q.EJ3 ∧
    (find_minima_st q).2.ng1 = q.ng1 ∧
    (find_minima_st q).2.ng2 = q.ng2 ∧
    (find_minima_st q).2.ECJ1 = q.ECJ1 ∧
    (find_minima_st q).2.ECJ2 = q.ECJ2 ∧
    (find_minima_st q).2.ECJ3 = q.ECJ3 ∧
    (find_minima_st q).2.ECg1 = q.ECg1 ∧
    (find_minima_st q).2.ECg2 = q.ECg2 ∧
    (find_minima_st q).2.flux = q.flux ∧
    (find_minima_st q).2.boundary_coefficients = q.boundary_coefficients ∧
    (find_minima_st q).1 = find_minima q := by
  rw [find_minima_st_eq]
  exact ⟨rfl, rfl, rfl, rfl, rfl, rfl, rfl, rfl, rfl, rfl, rfl, rfl, rfl, rfl⟩

/-- C9: `find_minima` always terminates, invokes the local optimizer at most
7 times (1 anchor seed plus 2 seeds per each of at most 3 ramp steps), and
returns a list of length between 1 and 7 — for every device-parameter set
and every optimizer, deduplicator and normalizer behavior. -/
theorem C9_termination_bounds (q : Qubit) :
    (find_minima_tr q).2.optCalls.length ≤ 7 ∧
    1 ≤ (find_minima q).length ∧ (find_minima q).length ≤ 7 := by
  refine ⟨?_, ?_, ?_⟩
  · rw [find_minima_tr_optCalls]
    have h1 := find_minima_loopT_optCalls_len q [1, 2, 3] [anchor_result q]
    have h2 := find_minima_loopT_steps_le q [1, 2, 3] [anchor_result q]
    simp only [List.length_cons]
    simp only [List.length_cons, List.length_nil] at h2
    omega
  · obtain ⟨t, ht⟩ := find_minima_loop_append q [1, 2, 3] [anchor_result q]
    rw [find_minima_eq_loop, ht]
    simp
  · have h := find_minima_loop_length q [1, 2, 3] [anchor_result q]
    rw [find_minima_eq_loop]
    simpa using h

/-- C10: both ramp directions of an iteration are always fully evaluated:
when the positive ramp at index k yields no new minimum, the loop body still
runs the negative ramp at -k (its seed is still passed to the optimizer),
uses its outcome as the final holder of the loop, and appends its normalized
result when it is declared novel — only then does the loop break. -/
theorem C10_negative_ramp_still_runs (q : Qubit) (k : ℤ) (ks : List ℤ)
    (h : List Point) (hp : (_ramp q k h).2 = false) :
    find_minima_loop q (k :: ks) h = (_ramp q (-k) (_ramp q k h).1).1 ∧
    (find_minima_loopT q (k :: ks) h).2.optCalls =
      [ramp_guess k, ramp_guess (-k)] ∧
    ((_ramp q (-k) (_ramp q k h).1).2 = true →
      (_ramp q (-k) (_ramp q k h).1).1 =
        (_ramp q k h).1 ++
          [q.normalize_minimum_inside_pi_range (ramp_raw q (-k))]) := by
  have hcond : ¬ (((_ramp q k h).2 && (_ramp q (-k) (_ramp q k h).1).2) = true) := by
    rw [hp]
    simp
  refine ⟨?_, ?_, ?_⟩
  · simp only [find_minima_loop]
    rw [if_neg hcond]
  · simp only [find_minima_loopT]
    rw [if_neg hcond]
  · intro hn
    rw [_ramp_fst, if_pos hn]

/-- Witness for C10: at the concrete qubit `qOrigin`, whose positive ramp at
k = 1 finds nothing new, the loop over the full schedule [1, 2, 3] still
equals the result of running the negative ramp at -1. -/
theorem C10_negative_ramp_still_runs_witness :
    find_minima_loop qOrigin [1, 2, 3] [((0 : ℚ), (0 : ℚ))] =
      (_ramp qOrigin (-1) (_ramp qOrigin 1 [((0 : ℚ), (0 : ℚ))]).1).1 :=
  (C10_negative_ramp_still_runs qOrigin 1 [2, 3] [((0 : ℚ), (0 : ℚ))]
    (by with_unfolding_all decide)).1
